import Mathlib

/-!
Shallow embedding of the music data model of `src/musiclibrary.hpp`
(classes `Note`, `Scale`, `RealisedScale`), compiled with the default
`ENGLISH_NAMING` configuration.

Conventions of the embedding:
* C++ `int` / `short` / `size_t` are modelled as `Int` / `Int` / `Nat`;
  the one place the code converts a possibly negative `int` to `size_t`
  (`static_cast<scale_degree_value>(std::stoi(...))` in
  `Scale::parse_scale_degree_string`) applies an explicit `% 2 ^ 64`.
  C++ `/` and `%` on `int` truncate toward zero, so they are modelled by
  `Int.tdiv` / `Int.tmod` (Lean's truncating pair), never by `/` / `%`.
* C++ exceptions are modelled by `Except String`, carrying the exact
  message string thrown by the source.
* `std::optional` is `Option`, `std::vector` is `List`, and the static
  `std::multimap` is an association list in key order (which is also the
  insertion order of the source initialiser, as `std::multimap` keeps
  equal keys in insertion order).
-/

/-! ### Constants (musiclibrary.hpp, top of file) -/

def NO_NAME_INFORMATION : String := "Trying to get name of a Note without name information."

def BOTH_ACCIDENTALS_FOUND : String := "Passed note name has both flats and sharps!"

def NO_SCALE_DEGREE : String := "No scale degree passed in string!"

def INVALID_SCALE_DEGREE_MESSAGE : String :=
  "No such thing as as a 0th scale degree. Use 1-based indexing."

def AMBIGUOUS_ROOT_MESSAGE : String :=
  "Scale degree constructor would produce a note without a MIDI value and no name. This is likely because the note passed as scale_root does not have a MIDI value or has more than one possible name"

def INVALID_NOTE_NAME_ROOT_MESSAGE : String :=
  "Note name root passed does not appear in the list of valid note name roots!"

/-- `std::map::at` with a missing key throws `std::out_of_range`. -/
def MAP_AT_OUT_OF_RANGE : String := "map::at"

/-- `std::stoi` on a string with no leading integer throws `std::invalid_argument`. -/
def STOI_INVALID_ARGUMENT : String := "stoi"

def middle_c_midi : Int := 60

def middle_c_octave : Int := 4

def notes_per_octave : Int := 12

/-- `note_print_seperator = '/'` as a string (always streamed into text). -/
def note_print_seperator : String := "/"

/-- `scale_degree_seperator = ','` as a string. -/
def scale_degree_seperator : String := ","

def downward_accidental : String := "b"

def upward_accidental : String := "#"

def note_names : List String := ["C", "D", "E", "F", "G", "A", "B"]

/-! ### Static pitch maps (private statics of `Note`) -/

/-- The `std::multimap<midi_value, std::tuple<midi_value, accidentals_value>>`
`scale_midi_offset_to_scale_degree_and_accidental`, as an association list in
key (= insertion) order: semitone offset from C ↦ (letter index, accidental). -/
def scale_midi_offset_to_scale_degree_and_accidental : List (Int × Nat × Int) :=
  [(0, 0, 0), (1, 0, 1), (1, 1, -1), (2, 1, 0), (3, 1, 1), (3, 2, -1),
   (4, 2, 0), (5, 3, 0), (6, 3, 1), (6, 4, -1), (7, 4, 0),
   (8, 4, 1), (8, 5, -1), (9, 5, 0), (10, 5, 1), (10, 6, -1), (11, 6, 0)]

/-- `multimap::equal_range` at a key: the entries of the association list whose
key equals the argument, in stored order. -/
def equal_range_at (k : Int) : List (Nat × Int) :=
  (scale_midi_offset_to_scale_degree_and_accidental.filter (fun e => e.1 = k)).map (·.2)

/-- The `std::map<scale_degree_value, midi_value> scale_degree_to_midi_diff`;
`none` models the `std::out_of_range` of `map::at` on a missing key. -/
def scale_degree_to_midi_diff : Nat → Option Int
  | 0 => some 0
  | 1 => some 2
  | 2 => some 4
  | 3 => some 5
  | 4 => some 7
  | 5 => some 9
  | 6 => some 11
  | _ => none

/-! ### The `Note` data -/

/-- `Note::NamingInformation`: letter index (`base_degree_`, 0-based into
`note_names`) and accidental count (`accidentals_`). -/
structure NamingInformation where
  base_degree : Nat
  accidentals : Int
deriving Repr, DecidableEq

/-- `Note::MIDIInformation`: a MIDI value together with its stored octave. -/
structure MIDIInformation where
  midi_val : Int
  octave : Int
deriving Repr, DecidableEq

/-- The single-argument `MIDIInformation(midi_value)` constructor:
`octave_ = middle_c_octave + ((midi_val - middle_c_midi) / notes_per_octave) -
(midi_val - middle_c_midi < 0 ? 1 : 0)` with C++ truncating division. -/
def MIDIInformation.ofMidi (midi_val : Int) : MIDIInformation :=
  { midi_val := midi_val
    octave := middle_c_octave + Int.tdiv (midi_val - middle_c_midi) notes_per_octave -
      (if midi_val - middle_c_midi < 0 then 1 else 0) }

deriving instance DecidableEq for Except

/-- The fields of a `Note`: `std::optional<MIDIInformation> midi_` and
`std::optional<std::vector<NamingInformation>> names_`. (The cached name
strings are pure functions of these fields and are not part of the state:
`have_to_regenerate_name` is initialised `true` and never set to `false`,
so the cache is recomputed on every call.) -/
structure Note where
  midi : Option MIDIInformation
  names : Option (List NamingInformation)
deriving Repr, DecidableEq

/-- `Note::check_has_name`: a naming set is present and non-empty. -/
def Note.check_has_name (n : Note) : Bool :=
  match n.names with
  | none => false
  | some l => !(l.length = 0)

/-- Well-formedness every C++-constructible `Note` enjoys: the
`NamingInformation` constructor rejects `base_degree > note_names.size() - 1`,
and every code path that installs `names_` installs a non-empty vector. -/
def WFNote (n : Note) : Prop :=
  match n.names with
  | none => True
  | some l => l ≠ [] ∧ ∀ nm ∈ l, nm.base_degree < note_names.length

instance : (n : Note) → Decidable (WFNote n)
  | ⟨_, none⟩ => isTrue trivial
  | ⟨_, some l⟩ =>
    inferInstanceAs (Decidable (l ≠ [] ∧ ∀ nm ∈ l, nm.base_degree < note_names.length))

/-! ### `Note::generate_naming_information_from_midi` -/

/-- `Note::generate_naming_information_from_midi`: all namings (up to one
accidental) of a MIDI value's pitch class, in multimap order. -/
def generate_naming_information_from_midi (midi : Int) : List NamingInformation :=
  let offset_from_middle_c : Int := midi - middle_c_midi
  let midi_offset_from_c_in_scale : Int :=
    Int.tmod (notes_per_octave + Int.tmod offset_from_middle_c notes_per_octave) notes_per_octave
  (equal_range_at midi_offset_from_c_in_scale).map (fun e => ⟨e.1, e.2⟩)

/-- The constructor `Note(midi_value midi, bool generate_names)`. -/
def Note.fromMidi (midi : Int) (generate_names : Bool := true) : Note :=
  { midi := some (MIDIInformation.ofMidi midi)
    names := if generate_names then some (generate_naming_information_from_midi midi) else none }

/-- The default constructor `Note()`: middle C with its single naming. -/
def noteDefault : Note :=
  { midi := some (MIDIInformation.ofMidi middle_c_midi)
    names := some [⟨0, 0⟩] }

/-! ### `Note::generate_naming_and_midi_from_root_and_scale_degree` -/

/-- `Note::generate_naming_and_midi_from_root_and_scale_degree`, the
pitch-spelling algorithm. `scale_degree` is 1-based on entry and rebased to
0-based `sd`; the function mirrors the source's three blocks: the MIDI block
(when the root has MIDI), the naming block (when the root has exactly one
naming), and the ambiguity check. -/
def generate_naming_and_midi_from_root_and_scale_degree
    (scale_root : Note) (scale_degree : Nat) (accidentals : Int) :
    Except String (Option NamingInformation × Option MIDIInformation) :=
  if scale_degree = 0 then
    Except.error INVALID_SCALE_DEGREE_MESSAGE
  else
    let sd := scale_degree - 1
    let midiiE : Except String (Option MIDIInformation) :=
      match scale_root.midi with
      | none => Except.ok none
      | some mi =>
        match scale_degree_to_midi_diff (sd % note_names.length) with
        | none => Except.error MAP_AT_OUT_OF_RANGE
        | some d =>
          let scale_degree_midi_diff : Int :=
            d + notes_per_octave * ((sd / note_names.length : Nat) : Int)
          Except.ok (some (MIDIInformation.ofMidi (mi.midi_val + scale_degree_midi_diff + accidentals)))
    match midiiE with
    | Except.error e => Except.error e
    | Except.ok midii =>
      let nameiE : Except String (Option NamingInformation) :=
        match scale_root.names with
        | some [root_naming] =>
          let number_of_note_names := note_names.length
          let root_base_degree := root_naming.base_degree
          let new_base_degree := (root_base_degree + sd) % number_of_note_names
          match scale_degree_to_midi_diff root_base_degree,
              scale_degree_to_midi_diff new_base_degree,
              scale_degree_to_midi_diff (sd % number_of_note_names) with
          | some d_root, some d_new, some d_sd =>
            let root_midi_offset_from_c : Int := d_root + root_naming.accidentals
            let scale_degree_without_accidentals_midi_offset_from_c : Int :=
              if d_new < root_midi_offset_from_c then d_new + notes_per_octave else d_new
            let expected_midi_diff_from_root : Int := d_sd + accidentals
            let unaccidented_midi_diff_from_root : Int :=
              scale_degree_without_accidentals_midi_offset_from_c - root_midi_offset_from_c
            let needed_accidentals : Int :=
              expected_midi_diff_from_root - unaccidented_midi_diff_from_root
            Except.ok (some ⟨new_base_degree, needed_accidentals⟩)
          | _, _, _ => Except.error MAP_AT_OUT_OF_RANGE
        | _ => Except.ok none
      match nameiE with
      | Except.error e => Except.error e
      | Except.ok namei =>
        match scale_root.midi, scale_root.names with
        | none, some l =>
          if l.length ≠ 1 then Except.error AMBIGUOUS_ROOT_MESSAGE
          else Except.ok (namei, midii)
        | _, _ => Except.ok (namei, midii)

/-- The constructor `Note(const Note& scale_root, scale_degree_value, accidentals_value)`:
`midi_ = midi; if (naming.has_value()) names_ = {naming.value()};`. -/
def Note.fromRootAndScaleDegree (scale_root : Note) (scale_degree : Nat) (accidentals : Int) :
    Except String Note :=
  match generate_naming_and_midi_from_root_and_scale_degree scale_root scale_degree accidentals with
  | Except.error e => Except.error e
  | Except.ok (naming, midi) =>
    Except.ok { midi := midi
                names := match naming with
                  | some nm => some [nm]
                  | none => none }

/-! ### String helpers -/

/-- Emit a token `n` times into a stream (the C++ `for` loops that print
accidental symbols). -/
def repeatStr (s : String) (n : Nat) : String := String.join (List.replicate n s)

/-- The recurring C++ streaming pattern
`bool first = true; for (item) { if (!first) stream << sep; stream << item; first = false; }`. -/
def joinLoop (sep : String) (items : List String) : String :=
  (items.foldl (fun (acc : String × Bool) s =>
    (acc.1 ++ (if acc.2 then "" else sep) ++ s, false)) ("", true)).1

/-- `std::stoi` restricted to the character data our regex groups can hold
(digits, `-` and `|`): an optional leading minus sign followed by the longest
digit run; `none` models the `std::invalid_argument` throw when no digits lead.
(`std::stoi` also skips whitespace and accepts `+`, but neither character is in
any regex group of the source.) -/
def digitsToNat (ds : List Char) : Nat :=
  ds.foldl (fun a c => a * 10 + (c.toNat - Char.toNat '0')) 0

def stoiInt (cs : List Char) : Option Int :=
  if cs.head? = some '-' then
    let ds := cs.tail.takeWhile Char.isDigit
    if ds.length = 0 then none else some (-(digitsToNat ds : Int))
  else
    let ds := cs.takeWhile Char.isDigit
    if ds.length = 0 then none else some ((digitsToNat ds : Int))

/-! ### `Note::generate_name_as_string` / `Note::get_name` -/

/-- The body of the per-naming part of `Note::generate_name_as_string`
(English naming: no German special case): the letter name followed by
`|accidentals_|` copies of the flat or sharp token, chosen by sign.
(`note_names[...]` is unchecked in C++; out-of-range indices — impossible for
a constructible `Note` — render as the empty string here.) -/
def render_naming_information (nm : NamingInformation) : String :=
  let accidental := if nm.accidentals < 0 then downward_accidental else upward_accidental
  let amount_of_accidentals : Nat :=
    (if nm.accidentals < 0 then nm.accidentals * (-1) else nm.accidentals).toNat
  note_names.getD nm.base_degree "" ++ repeatStr accidental amount_of_accidentals

/-- `Note::generate_name_as_string`: every naming in order, '/'-separated. -/
def generate_name_as_string (names : List NamingInformation) : String :=
  joinLoop note_print_seperator (names.map render_naming_information)

/-- `Note::get_name` (both overloads return `generate_name_as_string()`:
`have_to_regenerate_name` is never reset, so the cache never goes stale). -/
def Note.get_name (n : Note) : Except String String :=
  if n.check_has_name then Except.ok (generate_name_as_string (n.names.getD []))
  else Except.error NO_NAME_INFORMATION

/-! ### `Scale` -/

/-- The character class of the third group `[\-|\d]*` of
`scale_degree_regex_pattern` (also the fourth group of `note_name_regex_pattern`). -/
def digit_group_class (c : Char) : Bool := c = '-' || c = '|' || c.isDigit

/-- `Scale::parse_scale_degree_string`: match `(b*)(#*)([\-|\d]*)` (all groups
star-quantified and greedy, so the match sits at position 0 with maximal
munch per group), then the source's `switch` over the three groups. -/
def parse_scale_degree_string (input : String) : Except String (Nat × Int) :=
  let cs := input.toList
  let flats := cs.takeWhile (fun c => c = 'b')
  let rest1 := cs.dropWhile (fun c => c = 'b')
  let sharps := rest1.takeWhile (fun c => c = '#')
  let rest2 := rest1.dropWhile (fun c => c = '#')
  let degree_chars := rest2.takeWhile digit_group_class
  let accidentals : Int := if flats.length > 0 then -(flats.length : Int) else 0
  if sharps.length > 0 ∧ accidentals < 0 then Except.error BOTH_ACCIDENTALS_FOUND
  else
    let accidentals : Int := if sharps.length > 0 then (sharps.length : Int) else accidentals
    if degree_chars.length = 0 then Except.error NO_SCALE_DEGREE
    else
      match stoiInt degree_chars with
      | none => Except.error STOI_INVALID_ARGUMENT
      | some v => Except.ok ((Int.emod v (2 ^ 64)).toNat, accidentals)

/-- Split a character list at every occurrence of `sep` (the segments of
`std::getline(stream, tok, sep)` before its end-of-stream check). -/
def splitSegments (sep : Char) : List Char → List Char → List (List Char)
  | [], acc => [acc.reverse]
  | c :: rest, acc =>
    if c = sep then acc.reverse :: splitSegments sep rest []
    else splitSegments sep rest (c :: acc)

/-- `operator>>(std::istream&, Scale&)` applied to one line of text:
`std::getline(line_stream, tok, ',')` yields the comma-separated segments but
fails before producing a final empty one (end of stream with no characters
read), hence the `dropLast` correction. -/
def scaleFromLine (line : String) : Except String (List (Nat × Int)) :=
  let parts := (splitSegments ',' line.toList []).map String.mk
  let tokens := if parts.getLast? = some "" then parts.dropLast else parts
  tokens.mapM parse_scale_degree_string

/-- The per-entry output of `operator<<(std::ostream&, const Scale&)`:
flats are printed by `for (acc_i = 0; acc_i > sd.second; --acc_i)`
(`|sd.second|` iterations); the sharp branch's loop
`for (acc_i = 0; acc_i > sd.second; ++acc_i)` has a condition that is already
false on entry when `sd.second > 0`, so it prints the sharp token zero times. -/
def render_scale_degree_entry (sd : Nat × Int) : String :=
  let accs : String :=
    if sd.2 < 0 then repeatStr downward_accidental (sd.2 * (-1)).toNat
    else if sd.2 > 0 then repeatStr upward_accidental 0
    else ""
  accs ++ Nat.repr sd.1

/-- `operator<<(std::ostream&, const Scale&)`: entries joined by
`stream << scale_degree_seperator << ' '`. -/
def render_scale (degrees : List (Nat × Int)) : String :=
  joinLoop (scale_degree_seperator ++ " ") (degrees.map render_scale_degree_entry)

/-! ### `Note::generate_naming_and_midi_from_string` -/

/-- The first group `([a|c-zA-Z]*)` of `note_name_regex_pattern`: lowercase
letters except `b`, uppercase letters, and the literal `|`. -/
def note_name_root_class (c : Char) : Bool :=
  c = 'a' || c = '|' || ('c' ≤ c && c ≤ 'z') || ('A' ≤ c && c ≤ 'Z')

/-- `Note::generate_naming_and_midi_from_string`: match
`([a|c-zA-Z]*)(b*)(#*)([\-|\d]*)` at position 0 (all groups star-quantified
and greedy), then the source's `switch` over the four groups; English naming,
so no German `B` special case. `std::find`/`std::distance` over `note_names`
is `List.indexOf`, which like the C++ idiom yields the length when absent. -/
def generate_naming_and_midi_from_string (name : String) :
    Except String (NamingInformation × Option MIDIInformation) :=
  let cs := name.toList
  let g1 := cs.takeWhile note_name_root_class
  let rest1 := cs.dropWhile note_name_root_class
  let g2 := rest1.takeWhile (fun c => c = 'b')
  let rest2 := rest1.dropWhile (fun c => c = 'b')
  let g3 := rest2.takeWhile (fun c => c = '#')
  let rest3 := rest2.dropWhile (fun c => c = '#')
  let g4 := rest3.takeWhile digit_group_class
  let index := note_names.indexOf (String.mk g1)
  if index ≥ note_names.length then Except.error INVALID_NOTE_NAME_ROOT_MESSAGE
  else
    let accidentals : Int := if g2.length > 0 then -(g2.length : Int) else 0
    if g3.length > 0 ∧ accidentals < 0 then Except.error BOTH_ACCIDENTALS_FOUND
    else
      let accidentals : Int := accidentals + (if g3.length > 0 then (g3.length : Int) else 0)
      let ni : NamingInformation := ⟨index, accidentals⟩
      if g4.length > 0 then
        match stoiInt g4 with
        | none => Except.error STOI_INVALID_ARGUMENT
        | some octave =>
          let midi_offset_from_scale_c : Int := (index : Int) * 2 - (if index > 2 then 1 else 0)
          let midi : Int := middle_c_midi + (octave - middle_c_octave) * notes_per_octave +
            midi_offset_from_scale_c + accidentals
          Except.ok (ni, some ⟨midi, octave⟩)
      else
        Except.ok (ni, none)

/-- The constructor `Note(const std::string& name)`:
`names_ = {naming}; midi_ = midi;`. -/
def Note.fromName (name : String) : Except String Note :=
  match generate_naming_and_midi_from_string name with
  | Except.error e => Except.error e
  | Except.ok (naming, midi) => Except.ok { midi := midi, names := some [naming] }

/-! ### `RealisedScale` -/

/-- `RealisedScale::realise_scale`: degree 1 copies the root verbatim, any
other degree runs the scale-degree constructor; a C++ exception from any
entry aborts the whole construction, as does the first `Except.error` here. -/
def realise_scale (root : Note) : List (Nat × Int) → Except String (List Note)
  | [] => Except.ok []
  | sd :: rest =>
    match (if sd.1 = 1 then Except.ok root else Note.fromRootAndScaleDegree root sd.1 sd.2 :
        Except String Note) with
    | Except.error e => Except.error e
    | Except.ok note =>
      match realise_scale root rest with
      | Except.error e => Except.error e
      | Except.ok notes => Except.ok (note :: notes)

/-! ### Spec-side vocabulary

Definitions below this point are written from the specification's words, for
stating claims against the embedding above. -/

/-- A separator placed before each item of a list (the tail part of a join). -/
def sepChain (sep : String) : List String → String
  | [] => ""
  | x :: xs => sep ++ x ++ sepChain sep xs

/-- "Joined with the separator": the first item, then the separator before
each further item. -/
def intercalateSpec (sep : String) : List String → String
  | [] => ""
  | x :: xs => x ++ sepChain sep xs

/-- The natural letter-to-semitone table `{0,2,4,5,7,9,11}` named by the
spec, as a plain list. -/
def natural_letter_offsets : List Int := [0, 2, 4, 5, 7, 9, 11]

/-- The ten decimal digit characters. -/
def digitChars : List Char := ['0', '1', '2', '3', '4', '5', '6', '7', '8', '9']

/-- A general valid note-name string with an octave, assembled from its
grammar components `<letter><flats><sharps><signed integer octave>`:
letter index `L`, `f` flat characters, `sh` sharp characters, an optional
minus sign, and a non-empty digit string. -/
def mkNoteName (L f sh : Nat) (neg : Bool) (ds : List Char) : String :=
  String.mk ((note_names.getD L "").toList ++ List.replicate f 'b' ++ List.replicate sh '#' ++
    (if neg then ['-'] else []) ++ ds)

/-! ### Sanity examples -/

example : Note.fromRootAndScaleDegree noteDefault 3 0 =
    Except.ok { midi := some ⟨64, 4⟩, names := some [⟨2, 0⟩] } := by decide

example : Note.fromMidi 61 = { midi := some ⟨61, 4⟩, names := some [⟨0, 1⟩, ⟨1, -1⟩] } := by decide

example : MIDIInformation.ofMidi 48 = ⟨48, 2⟩ := by decide

example : MIDIInformation.ofMidi 59 = ⟨59, 3⟩ := by decide

example : scaleFromLine "1,2,b3,4,5,6,b7" =
    Except.ok [(1, 0), (2, 0), (3, -1), (4, 0), (5, 0), (6, 0), (7, -1)] := by decide

example : render_scale [(1, 0), (2, 0), (3, -1), (4, 1)] = "1, 2, b3, 4" := by decide

example : Note.fromName "C4" = Except.ok { midi := some ⟨60, 4⟩, names := some [⟨0, 0⟩] } := by
  decide

example : Note.fromName "Bb4" = Except.ok { midi := some ⟨70, 4⟩, names := some [⟨6, -1⟩] } := by
  decide

example : Note.fromName "Cb4" = Except.ok { midi := some ⟨59, 4⟩, names := some [⟨0, -1⟩] } := by
  decide

example : Note.fromName "F#" = Except.ok { midi := none, names := some [⟨3, 1⟩] } := by decide

example : (Note.fromMidi 61).get_name = Except.ok "C#/Db" := by decide

example : realise_scale noteDefault [(1, 0), (2, 0)] =
    Except.ok [noteDefault, { midi := some ⟨62, 4⟩, names := some [⟨1, 0⟩] }] := by decide

/-- The implicit invariant of C10, written from the spec: every stored naming
of a `Note` that also stores a pitch is an enharmonically correct spelling of
the stored pitch class, i.e. `offset(letter) + accidental ≡ pitch - 60 (mod 12)`
with `offset` the natural letter-to-semitone table. -/
def naming_pitch_consistent (n : Note) : Prop :=
  ∀ mi, n.midi = some mi → ∀ l, n.names = some l → ∀ nm ∈ l,
    (natural_letter_offsets.getD nm.base_degree 0 + nm.accidentals) ≡
      (mi.midi_val - middle_c_midi) [ZMOD 12]

/-! ### Helper lemmas -/

theorem tmod_twelve_bounds (a : Int) : -12 < a.tmod 12 ∧ a.tmod 12 < 12 := by
  rcases le_or_lt 0 a with h | h
  · have h1 := Int.tmod_nonneg 12 h
    have h2 := Int.tmod_lt_of_pos a (b := 12) (by norm_num)
    omega
  · have hn : (-a).tmod 12 = -(a.tmod 12) := by
      rw [Int.tmod_def, Int.tmod_def, Int.neg_tdiv]; ring
    have h1 := Int.tmod_nonneg (a := -a) 12 (by omega)
    have h2 := Int.tmod_lt_of_pos (-a) (b := 12) (by norm_num)
    omega

/-- The C++ idiom `(12 + x % 12) % 12` (truncating `%`) equals the
mathematical residue of `x` mod 12. -/
theorem tmod_normalisation (x : Int) : Int.tmod (12 + Int.tmod x 12) 12 = x % 12 := by
  have hb := tmod_twelve_bounds x
  have hin : Int.tmod x 12 = x - 12 * Int.tdiv x 12 := Int.tmod_def x 12
  rw [Int.tmod_eq_emod (by omega) (by norm_num), hin]
  omega

/-- `scale_degree_to_midi_diff` is total on letter indices below 7 and agrees
with the natural letter-to-semitone table. -/
theorem scale_degree_to_midi_diff_eq_offsets :
    ∀ k : Nat, k < 7 → scale_degree_to_midi_diff k = some (natural_letter_offsets.getD k 0) := by
  decide

theorem joinLoop_go (sep : String) :
    ∀ (xs : List String) (acc : String),
      (List.foldl (fun (a : String × Bool) s =>
        (a.1 ++ (if a.2 then "" else sep) ++ s, false)) (acc, false) xs).1 =
      acc ++ sepChain sep xs := by
  intro xs
  induction xs with
  | nil => intro acc; simp [sepChain]
  | cons x xs ih =>
    intro acc
    simp only [List.foldl, if_neg Bool.false_ne_true, sepChain]
    rw [ih]
    simp [String.append_assoc]

theorem joinLoop_eq_intercalateSpec (sep : String) (l : List String) :
    joinLoop sep l = intercalateSpec sep l := by
  cases l with
  | nil => rfl
  | cons x xs =>
    unfold joinLoop
    simp only [List.foldl, if_pos rfl]
    rw [joinLoop_go]
    unfold intercalateSpec
    simp [String.empty_append, String.append_empty]

/-! ### Claim theorems -/

/-- C7: constructing a scale-degree `Note` with scale-degree parameter 0
always fails with `InvalidScaleDegree`, for every root `Note` and every
accidental value, with no other data of the root examined. -/
theorem c7_degree_zero_always_invalid_scale_degree :
    ∀ (root : Note) (a : Int),
      Note.fromRootAndScaleDegree root 0 a = Except.error INVALID_SCALE_DEGREE_MESSAGE := by
  intro root a
  rfl

/-- C9: the static pitch-map tables equal the reference data: the
letter-to-offset table maps letters 0..6 to `{0,2,4,5,7,9,11}`; each natural
offset has exactly one naming entry (its natural letter, accidental 0); each
altered offset (1,3,6,8,10) has exactly two entries, the sharp spelling of
the letter a semitone below and the flat spelling of the letter a semitone
above. -/
theorem c9_pitch_map_tables_match_reference :
    (∀ L : Nat, L < 7 → scale_degree_to_midi_diff L = natural_letter_offsets.get? L)
    ∧ (∀ i : Nat, i < 7 → equal_range_at (natural_letter_offsets.getD i 0) = [(i, 0)])
    ∧ (∀ o : Int, o ∈ [(1 : Int), 3, 6, 8, 10] →
        ∃ lower, lower < 7 ∧ ∃ upper, upper < 7 ∧
          equal_range_at o = [(lower, 1), (upper, -1)] ∧
          scale_degree_to_midi_diff lower = some (o - 1) ∧
          scale_degree_to_midi_diff upper = some (o + 1)) := by
  decide

/-- Witness for C9: the quantified parts applied at letter 2 and offset 1. -/
theorem c9_pitch_map_tables_witness :
    scale_degree_to_midi_diff 2 = natural_letter_offsets.get? 2 ∧
    equal_range_at (natural_letter_offsets.getD 2 0) = [(2, 0)] ∧
    (∃ lower, lower < 7 ∧ ∃ upper, upper < 7 ∧
      equal_range_at 1 = [(lower, 1), (upper, -1)] ∧
      scale_degree_to_midi_diff lower = some 0 ∧
      scale_degree_to_midi_diff upper = some 2) :=
  ⟨c9_pitch_map_tables_match_reference.1 2 (by norm_num),
   c9_pitch_map_tables_match_reference.2.1 2 (by norm_num),
   c9_pitch_map_tables_match_reference.2.2 1 (by decide)⟩

/-- C6 (code bug): at the octave boundary MIDI 48 the stored octave is 2,
while the claim's floor-division formula gives 3 (C3 = MIDI 48 under the
middle-C = 60 = C4 convention): the constructor subtracts the truncation
correction for every negative offset, including exact multiples of 12. -/
theorem c6_octave_at_48_is_2_not_3 :
    (MIDIInformation.ofMidi 48).octave = 2 ∧
    middle_c_octave + Int.fdiv (48 - middle_c_midi) notes_per_octave = 3 := by
  decide

/-- C4 (counterexample): parsing "1,2,3,4,5,6,7" and rendering does not
return "1,2,3,4,5,6,7": the renderer emits a space after each separator. -/
theorem c4_roundtrip_not_identity :
    (scaleFromLine "1,2,3,4,5,6,7").map render_scale = Except.ok "1, 2, 3, 4, 5, 6, 7" ∧
    ("1, 2, 3, 4, 5, 6, 7" : String) ≠ "1,2,3,4,5,6,7" := by
  decide

/-- C4 (amended): rendering a `Scale` joins the entries with the separator
followed by a space, and writes the flat symbol `|a|` times when `a < 0` but
no symbol at all when `a > 0` (the sharp loop's condition is inverted); in
particular parsing "1,2,3,4,5,6,7" then rendering returns
"1, 2, 3, 4, 5, 6, 7". -/
theorem c4_scale_render_separator_space_and_dropped_sharps :
    (∀ degrees : List (Nat × Int),
      render_scale degrees = intercalateSpec (scale_degree_seperator ++ " ")
        (degrees.map (fun sd =>
          (if sd.2 < 0 then repeatStr downward_accidental sd.2.natAbs else "") ++ Nat.repr sd.1)))
    ∧ (scaleFromLine "1,2,3,4,5,6,7").map render_scale = Except.ok "1, 2, 3, 4, 5, 6, 7" := by
  constructor
  · intro degrees
    unfold render_scale
    rw [joinLoop_eq_intercalateSpec]
    have hfun : render_scale_degree_entry = (fun sd : Nat × Int =>
        (if sd.2 < 0 then repeatStr downward_accidental sd.2.natAbs else "") ++ Nat.repr sd.1) := by
      funext sd
      unfold render_scale_degree_entry
      by_cases h : sd.2 < 0
      · simp only [if_pos h]
        have : (sd.2 * (-1)).toNat = sd.2.natAbs := by omega
        rw [this]
      · by_cases h2 : sd.2 > 0
        · simp only [if_neg h, if_pos h2]
          rfl
        · simp only [if_neg h, if_neg h2]
    rw [hfun]
  · decide

/-- C5 (counterexample): for the two-naming note of pitch 61, `get_name`
returns the rendering of BOTH namings joined by '/', not the rendering of
the first naming only. -/
theorem c5_get_name_not_first_only :
    (Note.fromMidi 61).names = some [⟨0, 1⟩, ⟨1, -1⟩] ∧
    render_naming_information ⟨0, 1⟩ = "C#" ∧
    (Note.fromMidi 61).get_name = Except.ok "C#/Db" ∧
    ("C#/Db" : String) ≠ "C#" := by
  decide

/-- C5 (amended): for every `Note` with a present non-empty naming set,
`get_name` renders EVERY naming in order, joined by the '/' separator, each
as the letter name followed by `|accidental|` repetitions of the flat or
sharp token chosen by the accidental's sign. -/
theorem c5_get_name_renders_every_naming :
    ∀ (n : Note) (l : List NamingInformation), n.names = some l → l ≠ [] →
      n.get_name = Except.ok (intercalateSpec note_print_seperator (l.map (fun nm =>
        note_names.getD nm.base_degree "" ++
          repeatStr (if nm.accidentals < 0 then downward_accidental else upward_accidental)
            nm.accidentals.natAbs))) := by
  intro n l hn hne
  unfold Note.get_name Note.check_has_name
  rw [hn]
  have hlen : ¬(l.length = 0) := by
    intro h
    exact hne (List.length_eq_zero.mp h)
  simp only [hlen, decide_False, Bool.not_false, if_pos rfl, Option.getD_some]
  unfold generate_name_as_string
  rw [joinLoop_eq_intercalateSpec]
  have hfun : render_naming_information = (fun nm : NamingInformation =>
      note_names.getD nm.base_degree "" ++
        repeatStr (if nm.accidentals < 0 then downward_accidental else upward_accidental)
          nm.accidentals.natAbs) := by
    funext nm
    unfold render_naming_information
    by_cases h : nm.accidentals < 0
    · simp only [if_pos h]
      have : (nm.accidentals * (-1)).toNat = nm.accidentals.natAbs := by omega
      rw [this]
    · simp only [if_neg h]
      have : nm.accidentals.toNat = nm.accidentals.natAbs := by omega
      rw [this]
  rw [hfun]
  simp

/-- Witness for C5 (amended), applied to the note of pitch 61. -/
theorem c5_get_name_renders_every_naming_witness :
    (Note.fromMidi 61).get_name = Except.ok (intercalateSpec note_print_seperator
      ([⟨0, 1⟩, ⟨1, -1⟩].map (fun nm : NamingInformation =>
        note_names.getD nm.base_degree "" ++
          repeatStr (if nm.accidentals < 0 then downward_accidental else upward_accidental)
            nm.accidentals.natAbs))) :=
  c5_get_name_renders_every_naming (Note.fromMidi 61) [⟨0, 1⟩, ⟨1, -1⟩] (by decide) (by decide)

/-- C8: whenever scale realisation succeeds, every entry whose degree is 1
(whatever its accidental) yields a `Note` structurally identical to the root,
at the same index. -/
theorem c8_degree_one_entries_realise_to_root :
    ∀ (root : Note) (scale : List (Nat × Int)) (notes : List Note),
      realise_scale root scale = Except.ok notes →
      notes.length = scale.length ∧
      ∀ (i : Nat) (hi : i < scale.length) (hi2 : i < notes.length),
        (scale.get ⟨i, hi⟩).1 = 1 → notes.get ⟨i, hi2⟩ = root := by
  intro root scale
  induction scale with
  | nil =>
    intro notes h
    unfold realise_scale at h
    cases h
    exact ⟨rfl, fun i hi => absurd hi (Nat.not_lt_zero i)⟩
  | cons sd rest ih =>
    intro notes h
    unfold realise_scale at h
    rcases hh : (if sd.1 = 1 then Except.ok root else Note.fromRootAndScaleDegree root sd.1 sd.2 :
        Except String Note) with e | note
    · rw [hh] at h; cases h
    · rw [hh] at h
      rcases hr : realise_scale root rest with e2 | notes2
      · rw [hr] at h; cases h
      · rw [hr] at h
        cases h
        obtain ⟨hlen, hall⟩ := ih notes2 hr
        refine ⟨by simp [hlen], ?_⟩
        intro i hi hi2 hdeg
        cases i with
        | zero =>
          simp only [List.get] at hdeg ⊢
          rw [if_pos hdeg] at hh
          cases hh
          rfl
        | succ j =>
          simp only [List.get] at hdeg ⊢
          have hj : j < rest.length := by simp only [List.length_cons] at hi; omega
          have hj2 : j < notes2.length := by simp only [List.length_cons] at hi2; omega
          exact hall j hj hj2 hdeg

/-- Witness for C8: a scale whose only entry is degree 1 with accidental 5,
realised against the two-naming note of pitch 61, reproduces that root. -/
theorem c8_degree_one_entries_realise_to_root_witness :
    [Note.fromMidi 61].get ⟨0, by norm_num⟩ = Note.fromMidi 61 :=
  (c8_degree_one_entries_realise_to_root (Note.fromMidi 61) [(1, 5)] [Note.fromMidi 61]
    (by decide)).2 0 (by norm_num) (by norm_num) (by decide)



/-- Evaluation of the pitch-spelling routine on a well-formed root in the
non-failing cases: gives the exact MIDI result (root MIDI plus the offset of
`sd mod 7` plus `12 ⌊sd/7⌋` plus the accidental) and the exact new naming
(letter `(root letter + sd) mod 7`, with the derived accidental). -/
theorem gen_characterisation (mo : Option MIDIInformation) (no : Option (List NamingInformation))
    (d : Nat) (a : Int) (hwf : WFNote ⟨mo, no⟩) (hd : ¬ d = 0)
    (hnotamb : mo = none → ∀ l, no = some l → l.length = 1) :
    ∃ namei midii,
      generate_naming_and_midi_from_root_and_scale_degree ⟨mo, no⟩ d a =
        Except.ok (namei, midii) ∧
      (∀ mi, mo = some mi → midii = some (MIDIInformation.ofMidi
        (mi.midi_val + (natural_letter_offsets.getD ((d - 1) % 7) 0
          + 12 * (((d - 1) / 7 : Nat) : Int)) + a))) ∧
      (∀ nm, no = some [nm] →
        namei = some ⟨(nm.base_degree + (d - 1)) % 7,
          (natural_letter_offsets.getD ((d - 1) % 7) 0 + a) -
            ((if natural_letter_offsets.getD ((nm.base_degree + (d - 1)) % 7) 0 <
                 natural_letter_offsets.getD nm.base_degree 0 + nm.accidentals
              then natural_letter_offsets.getD ((nm.base_degree + (d - 1)) % 7) 0 + 12
              else natural_letter_offsets.getD ((nm.base_degree + (d - 1)) % 7) 0) -
             (natural_letter_offsets.getD nm.base_degree 0 + nm.accidentals))⟩) ∧
      (mo = none → midii = none) ∧
      (no = none → namei = none) ∧
      (∀ l, no = some l → l.length ≠ 1 → namei = none) := by
  have hlen7 : note_names.length = 7 := rfl
  have hmodlt : (d - 1) % 7 < 7 := Nat.mod_lt _ (by norm_num)
  have hdsd := scale_degree_to_midi_diff_eq_offsets _ hmodlt
  unfold generate_naming_and_midi_from_root_and_scale_degree
  rw [if_neg hd]
  simp only [hlen7, hdsd]
  cases mo with
  | none =>
    rcases no with _ | l
    · refine ⟨none, none, rfl, ?_, ?_, fun _ => rfl, fun _ => rfl, ?_⟩
      · intro mi h; cases h
      · intro nm h; cases h
      · intro l h; cases h
    · rcases l with _ | ⟨nm, l'⟩
      · exact absurd hwf.1 (by simp)
      · rcases l' with _ | ⟨nm2, l''⟩
        · have hb : nm.base_degree < 7 := by
            have := hwf.2 nm (by simp)
            simpa [hlen7] using this
          have hd1 := scale_degree_to_midi_diff_eq_offsets _ hb
          have hb2 : (nm.base_degree + (d - 1)) % 7 < 7 := Nat.mod_lt _ (by norm_num)
          have hd2 := scale_degree_to_midi_diff_eq_offsets _ hb2
          simp only [hd1, hd2]
          refine ⟨_, none, rfl, ?_, ?_, fun _ => rfl, ?_, ?_⟩
          · intro mi h; cases h
          · intro nm' h
            cases h
            simp [notes_per_octave]
          · intro h; cases h
          · intro l h hl
            cases h
            simp at hl
        · exact absurd (hnotamb rfl _ rfl) (by simp)
  | some mi =>
    rcases no with _ | l
    · refine ⟨none, _, rfl, ?_, ?_, ?_, fun _ => rfl, ?_⟩
      · intro mi' h
        cases h
        simp [notes_per_octave]
      · intro nm h; cases h
      · intro h; cases h
      · intro l h; cases h
    · rcases l with _ | ⟨nm, l'⟩
      · exact absurd hwf.1 (by simp)
      · rcases l' with _ | ⟨nm2, l''⟩
        · have hb : nm.base_degree < 7 := by
            have := hwf.2 nm (by simp)
            simpa [hlen7] using this
          have hd1 := scale_degree_to_midi_diff_eq_offsets _ hb
          have hb2 : (nm.base_degree + (d - 1)) % 7 < 7 := Nat.mod_lt _ (by norm_num)
          have hd2 := scale_degree_to_midi_diff_eq_offsets _ hb2
          simp only [hd1, hd2]
          refine ⟨_, _, rfl, ?_, ?_, ?_, ?_, ?_⟩
          · intro mi' h
            cases h
            simp [notes_per_octave]
          · intro nm' h
            cases h
            simp [notes_per_octave]
          · intro h; cases h
          · intro h; cases h
          · intro l h hl
            cases h
            simp at hl
        · refine ⟨none, _, rfl, ?_, ?_, ?_, ?_, fun _ _ _ => rfl⟩
          · intro mi' h
            cases h
            simp [notes_per_octave]
          · intro nm h; cases h
          · intro h; cases h
          · intro h; cases h

/-- The pitch-spelling routine throws the `AmbiguousRoot` message whenever
the root has no MIDI value and a naming set of size ≠ 1 (and the degree is
non-zero). -/
theorem gen_ambiguous (no : Option (List NamingInformation)) (d : Nat) (a : Int)
    (hd : ¬ d = 0) (l : List NamingInformation) (hno : no = some l) (hl : l.length ≠ 1) :
    generate_naming_and_midi_from_root_and_scale_degree ⟨none, no⟩ d a =
      Except.error AMBIGUOUS_ROOT_MESSAGE := by
  subst hno
  unfold generate_naming_and_midi_from_root_and_scale_degree
  rw [if_neg hd]
  rcases l with _ | ⟨nm, l'⟩
  · simp at hl ⊢
  · rcases l' with _ | ⟨nm2, l''⟩
    · simp at hl
    · simp at hl ⊢

/-- C2: with degree ≥ 1 and a well-formed root, the scale-degree constructor
fails with `AmbiguousRoot` exactly when the root has no pitch value and more
than one naming; in every other case it succeeds. -/
theorem c2_ambiguous_root_iff :
    ∀ (root : Note) (d : Nat) (a : Int), WFNote root → 1 ≤ d →
      (Note.fromRootAndScaleDegree root d a = Except.error AMBIGUOUS_ROOT_MESSAGE ↔
        root.midi = none ∧ ∃ l, root.names = some l ∧ 1 < l.length)
      ∧ (¬(root.midi = none ∧ ∃ l, root.names = some l ∧ 1 < l.length) →
          ∃ note, Note.fromRootAndScaleDegree root d a = Except.ok note) := by
  rintro ⟨mo, no⟩ d a hwf hd1
  have hd : ¬ d = 0 := by omega
  have hsucc : ¬(mo = none ∧ ∃ l, no = some l ∧ 1 < l.length) →
      ∃ note, Note.fromRootAndScaleDegree ⟨mo, no⟩ d a = Except.ok note := by
    intro hnc
    have hnotamb : mo = none → ∀ l, no = some l → l.length = 1 := by
      intro hmo l hno
      have hne : l ≠ [] := by
        subst hno
        exact hwf.1
      have hlen1 : 1 ≤ l.length := by
        cases l with
        | nil => exact absurd rfl hne
        | cons x xs => simp
      by_contra hne1
      exact hnc ⟨hmo, l, hno, by omega⟩
    obtain ⟨namei, midii, heq, -, -, -, -, -⟩ := gen_characterisation mo no d a hwf hd hnotamb
    rcases namei with _ | nm
    · refine ⟨{ midi := midii, names := none }, ?_⟩
      unfold Note.fromRootAndScaleDegree
      rw [heq]
    · refine ⟨{ midi := midii, names := some [nm] }, ?_⟩
      unfold Note.fromRootAndScaleDegree
      rw [heq]
  constructor
  · constructor
    · intro herr
      by_contra hnc
      obtain ⟨note, hok⟩ := hsucc hnc
      rw [herr] at hok
      cases hok
    · rintro ⟨hmo, l, hno, hlen⟩
      subst hmo
      have := gen_ambiguous no d a hd l hno (by omega)
      unfold Note.fromRootAndScaleDegree
      rw [this]
  · exact hsucc

/-- Witness for C2 at a concrete ambiguous root: pitchless two-naming note. -/
theorem c2_ambiguous_root_iff_witness :
    Note.fromRootAndScaleDegree { midi := none, names := some [⟨0, 1⟩, ⟨1, -1⟩] } 2 0 =
      Except.error AMBIGUOUS_ROOT_MESSAGE :=
  (c2_ambiguous_root_iff { midi := none, names := some [⟨0, 1⟩, ⟨1, -1⟩] } 2 0
    (by decide) (by norm_num)).1.mpr ⟨rfl, [⟨0, 1⟩, ⟨1, -1⟩], rfl, by simp⟩

/-- C1: pitch-spelling arithmetic of the scale-degree constructor (with
`sd = d - 1`): a root with a pitch yields pitch
`root.pitch + offset(sd mod 7) + 12⌊sd/7⌋ + a`; a root with exactly one
naming yields letter `(root.letter + sd) mod 7`; and the concrete C4 /
degree 3 / accidental 0 case yields letter 2, accidental 0, pitch 64. -/
theorem c1_pitch_spelling :
    (∀ (root : Note) (d : Nat) (a : Int), WFNote root → 1 ≤ d →
      (∀ mi, root.midi = some mi →
        ∃ note, Note.fromRootAndScaleDegree root d a = Except.ok note ∧
          ∃ mi2, note.midi = some mi2 ∧
            mi2.midi_val = mi.midi_val + natural_letter_offsets.getD ((d - 1) % 7) 0
              + 12 * (((d - 1) / 7 : Nat) : Int) + a)
      ∧ (∀ nm, root.names = some [nm] →
          ∃ note, Note.fromRootAndScaleDegree root d a = Except.ok note ∧
            ∃ nm2, note.names = some [nm2] ∧
              nm2.base_degree = (nm.base_degree + (d - 1)) % 7))
    ∧ Note.fromRootAndScaleDegree { midi := some ⟨60, 4⟩, names := some [⟨0, 0⟩] } 3 0 =
        Except.ok { midi := some ⟨64, 4⟩, names := some [⟨2, 0⟩] } := by
  constructor
  · rintro ⟨mo, no⟩ d a hwf hd1
    have hd : ¬ d = 0 := by omega
    constructor
    · intro mi hmi
      have hnotamb : mo = none → ∀ l, no = some l → l.length = 1 := by
        intro hmo
        rw [hmo] at hmi
        cases hmi
      obtain ⟨namei, midii, heq, hmidi, -, -, -, -⟩ := gen_characterisation mo no d a hwf hd hnotamb
      have hmid := hmidi mi hmi
      rcases namei with _ | nm
      · refine ⟨{ midi := midii, names := none }, ?_, ?_⟩
        · unfold Note.fromRootAndScaleDegree
          rw [heq]
        · rw [hmid]
          exact ⟨_, rfl, by unfold MIDIInformation.ofMidi; ring⟩
      · refine ⟨{ midi := midii, names := some [nm] }, ?_, ?_⟩
        · unfold Note.fromRootAndScaleDegree
          rw [heq]
        · rw [hmid]
          exact ⟨_, rfl, by unfold MIDIInformation.ofMidi; ring⟩
    · intro nm hnm
      have hnotamb : mo = none → ∀ l, no = some l → l.length = 1 := by
        intro hmo l hno
        have hnm2 : no = some [nm] := hnm
        rw [hnm2] at hno
        cases hno
        rfl
      obtain ⟨namei, midii, heq, -, hname, -, -, -⟩ := gen_characterisation mo no d a hwf hd hnotamb
      have hnmv := hname nm hnm
      subst hnmv
      refine ⟨{ midi := midii,
                names := some [⟨(nm.base_degree + (d - 1)) % 7,
                  natural_letter_offsets.getD ((d - 1) % 7) 0 + a -
                    ((if natural_letter_offsets.getD ((nm.base_degree + (d - 1)) % 7) 0 <
                         natural_letter_offsets.getD nm.base_degree 0 + nm.accidentals
                      then natural_letter_offsets.getD ((nm.base_degree + (d - 1)) % 7) 0 + 12
                      else natural_letter_offsets.getD ((nm.base_degree + (d - 1)) % 7) 0) -
                     (natural_letter_offsets.getD nm.base_degree 0 + nm.accidentals))⟩] },
              ?_, ?_⟩
      · unfold Note.fromRootAndScaleDegree
        rw [heq]
      · exact ⟨_, rfl, rfl⟩
  · decide

/-- Witness for C1: the two quantified parts applied to the C4 root at
degree 3, accidental 0. -/
theorem c1_pitch_spelling_witness :
    (∃ note, Note.fromRootAndScaleDegree noteDefault 3 0 = Except.ok note ∧
      ∃ mi2, note.midi = some mi2 ∧
        mi2.midi_val = 60 + natural_letter_offsets.getD (2 % 7) 0 + 12 * ((2 / 7 : Nat) : Int) + 0)
    ∧ (∃ note, Note.fromRootAndScaleDegree noteDefault 3 0 = Except.ok note ∧
        ∃ nm2, note.names = some [nm2] ∧ nm2.base_degree = (0 + 2) % 7) :=
  ⟨(c1_pitch_spelling.1 noteDefault 3 0 (by decide) (by norm_num)).1 (MIDIInformation.ofMidi 60)
     rfl,
   (c1_pitch_spelling.1 noteDefault 3 0 (by decide) (by norm_num)).2 ⟨0, 0⟩ rfl⟩

/-- Every entry of the enharmonic multimap satisfies
`offset(letter) + accidental = key`. -/
theorem table_entries_offset :
    ∀ e ∈ scale_midi_offset_to_scale_degree_and_accidental,
      natural_letter_offsets.getD e.2.1 0 + e.2.2 = e.1 := by
  decide

/-- The name-parsing shortcut `index * 2 - (index > 2 ? 1 : 0)` agrees with
the natural letter-to-semitone table on letters 0..6. -/
theorem offsets_eq_calc : ∀ i : Nat, i < 7 →
    natural_letter_offsets.getD i 0 = (i : Int) * 2 - (if i > 2 then 1 else 0) := by
  decide

/-- Notes built from a MIDI value satisfy the naming/pitch invariant. -/
theorem fromMidi_consistent (m : Int) (g : Bool) :
    naming_pitch_consistent (Note.fromMidi m g) := by
  intro mi hmi l hl nm hnm
  simp only [Note.fromMidi] at hmi hl
  cases hmi
  cases g with
  | false => cases hl
  | true =>
    simp only [if_pos rfl] at hl
    cases hl
    unfold generate_naming_information_from_midi at hnm
    obtain ⟨e, he, hme⟩ := List.mem_map.mp hnm
    obtain ⟨e2, he2, hme2⟩ := List.mem_map.mp he
    have htab := table_entries_offset e2 (List.mem_filter.mp he2).1
    have hkey : e2.1 = Int.tmod (notes_per_octave + Int.tmod (m - middle_c_midi) notes_per_octave)
        notes_per_octave := by
      have := (List.mem_filter.mp he2).2
      exact of_decide_eq_true this
    subst hme
    subst hme2
    simp only [MIDIInformation.ofMidi]
    have hnorm : Int.tmod (notes_per_octave + Int.tmod (m - middle_c_midi) notes_per_octave)
        notes_per_octave = (m - middle_c_midi) % 12 := by
      simp only [notes_per_octave, middle_c_midi]
      exact tmod_normalisation (m - 60)
    rw [htab, hkey, hnorm]
    unfold Int.ModEq
    omega

/-- Notes built from a name string satisfy the naming/pitch invariant. -/
theorem fromName_consistent (s : String) (n : Note) (h : Note.fromName s = Except.ok n) :
    naming_pitch_consistent n := by
  unfold Note.fromName at h
  rcases hp : generate_naming_and_midi_from_string s with e | ⟨ni, mio⟩
  · rw [hp] at h; cases h
  · rw [hp] at h
    cases h
    unfold generate_naming_and_midi_from_string at hp
    dsimp only at hp
    set g1 := List.takeWhile note_name_root_class s.toList with hg1
    set rest1 := List.dropWhile note_name_root_class s.toList with hrest1
    set g2 := List.takeWhile (fun c => decide (c = 'b')) rest1 with hg2
    set rest2 := List.dropWhile (fun c => decide (c = 'b')) rest1 with hrest2
    set g3 := List.takeWhile (fun c => decide (c = '#')) rest2 with hg3
    set rest3 := List.dropWhile (fun c => decide (c = '#')) rest2 with hrest3
    set g4 := List.takeWhile digit_group_class rest3 with hg4
    set index := List.indexOf (String.mk g1) note_names with hindex
    by_cases hidx : index ≥ note_names.length
    · rw [if_pos hidx] at hp
      cases hp
    · rw [if_neg hidx] at hp
      by_cases hconf : g3.length > 0 ∧ (if g2.length > 0 then -(g2.length : Int) else 0) < 0
      · rw [if_pos hconf] at hp
        cases hp
      · rw [if_neg hconf] at hp
        by_cases hoct : g4.length > 0
        · rw [if_pos hoct] at hp
          rcases hstoi : stoiInt g4 with _ | octave
          · rw [hstoi] at hp
            cases hp
          · rw [hstoi] at hp
            injection hp with hp1
            injection hp1 with hni hmio
            subst hni
            subst hmio
            intro mi hmi l hl nm hnm
            cases hmi
            cases hl
            simp only [List.mem_singleton] at hnm
            subst hnm
            have hlt : index < 7 := by
              simp only [not_le] at hidx
              exact hidx
            have hoff := offsets_eq_calc _ hlt
            simp only []
            rw [hoff]
            unfold Int.ModEq
            simp only [middle_c_midi, middle_c_octave, notes_per_octave]
            by_cases h2 : index > 2
            · simp only [if_pos h2]
              omega
            · simp only [if_neg h2]
              omega
        · rw [if_neg hoct] at hp
          injection hp with hp1
          injection hp1 with hni hmio
          subst hni
          subst hmio
          intro mi hmi
          cases hmi

/-- The scale-degree constructor preserves the naming/pitch invariant: if the
(well-formed) root satisfies it, so does any successfully constructed note. -/
theorem fromRoot_consistent (root : Note) (d : Nat) (a : Int) (n : Note)
    (hwf : WFNote root) (hinv : naming_pitch_consistent root)
    (h : Note.fromRootAndScaleDegree root d a = Except.ok n) :
    naming_pitch_consistent n := by
  rcases root with ⟨mo, no⟩
  by_cases hd : d = 0
  · subst hd
    unfold Note.fromRootAndScaleDegree generate_naming_and_midi_from_root_and_scale_degree at h
    rw [if_pos rfl] at h
    cases h
  · have hnotamb : mo = none → ∀ l, no = some l → l.length = 1 := by
      intro hmo l hno
      by_contra hne
      subst hmo
      have herr := gen_ambiguous no d a hd l hno hne
      unfold Note.fromRootAndScaleDegree at h
      rw [herr] at h
      cases h
    obtain ⟨namei, midii, heq, hmidi, hname, hmon, hnon, hmulti⟩ :=
      gen_characterisation mo no d a hwf hd hnotamb
    unfold Note.fromRootAndScaleDegree at h
    rw [heq] at h
    rcases namei with _ | nm2
    · cases h
      intro mi hmi l hl
      cases hl
    · cases h
      intro mi2 hmi2 l hl nmx hnmx
      cases hl
      simp only [List.mem_singleton] at hnmx
      subst hnmx
      rcases mo with _ | mi
      · rw [hmon rfl] at hmi2
        cases hmi2
      · have hm := hmidi mi rfl
        rw [hm] at hmi2
        cases hmi2
        rcases no with _ | l'
        · cases hnon rfl
        · rcases l' with _ | ⟨nm, rest⟩
          · cases hmulti [] rfl (by simp)
          · rcases rest with _ | ⟨nmb, rest2⟩
            · have hv := hname nm rfl
              injection hv with hv2
              subst hv2
              have hrootinv := hinv mi rfl [nm] rfl nm (by simp)
              have hb : nm.base_degree < 7 := by
                have := hwf.2 nm (by simp)
                simpa using this
              have hb2 : (nm.base_degree + (d - 1)) % 7 < 7 := Nat.mod_lt _ (by norm_num)
              unfold MIDIInformation.ofMidi
              unfold Int.ModEq at hrootinv ⊢
              simp only [middle_c_midi] at hrootinv ⊢
              by_cases hw : natural_letter_offsets.getD ((nm.base_degree + (d - 1)) % 7) 0 <
                  natural_letter_offsets.getD nm.base_degree 0 + nm.accidentals
              · simp only [if_pos hw]
                omega
              · simp only [if_neg hw]
                omega
            · cases hmulti (nm :: nmb :: rest2) rfl (by simp)

/-- C10: every `Note` produced by the public constructors — default, from a
pitch value, from a name string, or from (root, degree, accidental) with a
well-formed root that itself satisfies the invariant — satisfies the
naming/pitch consistency invariant: each stored naming spells the stored
pitch class, `offset(letter) + accidental ≡ pitch - 60 (mod 12)`. -/
theorem c10_constructors_naming_pitch_consistent :
    naming_pitch_consistent noteDefault
    ∧ (∀ (m : Int) (g : Bool), naming_pitch_consistent (Note.fromMidi m g))
    ∧ (∀ (s : String) (n : Note), Note.fromName s = Except.ok n → naming_pitch_consistent n)
    ∧ (∀ (root : Note) (d : Nat) (a : Int) (n : Note), WFNote root →
        naming_pitch_consistent root →
        Note.fromRootAndScaleDegree root d a = Except.ok n → naming_pitch_consistent n) := by
  refine ⟨?_, fromMidi_consistent, fromName_consistent, fromRoot_consistent⟩
  intro mi hmi l hl nm hnm
  cases hmi
  cases hl
  simp only [List.mem_singleton] at hnm
  subst hnm
  decide

/-- Witness for C10: the name-string part applied to "C4", and the
scale-degree part applied to (C4 root, degree 3, accidental 0). -/
theorem c10_constructors_naming_pitch_consistent_witness :
    naming_pitch_consistent { midi := some ⟨60, 4⟩, names := some [⟨0, 0⟩] } ∧
    naming_pitch_consistent { midi := some ⟨64, 4⟩, names := some [⟨2, 0⟩] } :=
  ⟨c10_constructors_naming_pitch_consistent.2.2.1 "C4"
     { midi := some ⟨60, 4⟩, names := some [⟨0, 0⟩] } (by decide),
   c10_constructors_naming_pitch_consistent.2.2.2
     { midi := some ⟨60, 4⟩, names := some [⟨0, 0⟩] } 3 0
     { midi := some ⟨64, 4⟩, names := some [⟨2, 0⟩] } (by decide)
     (c10_constructors_naming_pitch_consistent.2.2.1 "C4"
       { midi := some ⟨60, 4⟩, names := some [⟨0, 0⟩] } (by decide))
     (by decide)⟩

/-! ### Lemmas for the regex-group spans of the name parser -/

theorem takeWhile_append_of_all {p : Char → Bool} :
    ∀ (xs ys : List Char), (∀ c ∈ xs, p c = true) →
      List.takeWhile p (xs ++ ys) = xs ++ List.takeWhile p ys
  | [], _, _ => by simp
  | x :: xs, ys, h => by
    have hx := h x (List.mem_cons_self x xs)
    have hxs : ∀ c ∈ xs, p c = true := fun c hc => h c (List.mem_cons_of_mem x hc)
    simp [List.takeWhile_cons, hx, takeWhile_append_of_all xs ys hxs]

theorem dropWhile_append_of_all {p : Char → Bool} :
    ∀ (xs ys : List Char), (∀ c ∈ xs, p c = true) →
      List.dropWhile p (xs ++ ys) = List.dropWhile p ys
  | [], _, _ => by simp
  | x :: xs, ys, h => by
    have hx := h x (List.mem_cons_self x xs)
    have hxs : ∀ c ∈ xs, p c = true := fun c hc => h c (List.mem_cons_of_mem x hc)
    simp [List.dropWhile_cons, hx, dropWhile_append_of_all xs ys hxs]

theorem takeWhile_eq_nil_of_all {p : Char → Bool} (ys : List Char)
    (h : ∀ c ∈ ys, p c = false) : List.takeWhile p ys = [] := by
  cases ys with
  | nil => rfl
  | cons y ys => simp [List.takeWhile_cons, h y (List.mem_cons_self y ys)]

theorem dropWhile_eq_self_of_all {p : Char → Bool} (ys : List Char)
    (h : ∀ c ∈ ys, p c = false) : List.dropWhile p ys = ys := by
  cases ys with
  | nil => rfl
  | cons y ys => simp [List.dropWhile_cons, h y (List.mem_cons_self y ys)]

theorem takeWhile_eq_self_of_all {p : Char → Bool} (ys : List Char)
    (h : ∀ c ∈ ys, p c = true) : List.takeWhile p ys = ys := by
  have := takeWhile_append_of_all ys [] h
  simpa using this

/-- The characters of each valid letter name satisfy the first regex group's
class. -/
theorem letter_chars_in_class : ∀ L : Nat, L < 7 →
    ∀ c ∈ (note_names.getD L "").toList, note_name_root_class c = true := by
  decide

theorem digit_not_root_class : ∀ c ∈ digitChars, note_name_root_class c = false := by decide

theorem digit_not_flat : ∀ c ∈ digitChars, decide (c = 'b') = false := by decide

theorem digit_not_sharp : ∀ c ∈ digitChars, decide (c = '#') = false := by decide

theorem digit_in_digit_group : ∀ c ∈ digitChars, digit_group_class c = true := by decide

theorem digit_isDigit : ∀ c ∈ digitChars, c.isDigit = true := by decide

theorem digit_ne_minus : ∀ c ∈ digitChars, c ≠ '-' := by decide

theorem indexOf_note_names : ∀ L : Nat, L < 7 →
    List.indexOf (note_names.getD L "") note_names = L := by
  decide

theorem toList_mk (l : List Char) : (String.mk l).toList = l := rfl

theorem mk_toList (s : String) : String.mk s.toList = s := rfl

/-- Parsing a valid note-name-with-octave string recovers exactly the naming
`(L, sh - f)` and a MIDI value in the pitch class `offset(L) + (sh - f)`. -/
theorem parse_mkNoteName (L f sh : Nat) (neg : Bool) (ds : List Char)
    (hL : L < 7) (hfs : f = 0 ∨ sh = 0) (hds : ds ≠ []) (hdig : ∀ c ∈ ds, c ∈ digitChars) :
    ∃ octave midival : Int,
      generate_naming_and_midi_from_string (mkNoteName L f sh neg ds) =
        Except.ok (⟨L, (sh : Int) - (f : Int)⟩, some ⟨midival, octave⟩) ∧
      (midival - middle_c_midi) % 12 =
        (natural_letter_offsets.getD L 0 + ((sh : Int) - (f : Int))) % 12 := by
  have hdsdig : ∀ c ∈ ds, c.isDigit = true := fun c hc => digit_isDigit c (hdig c hc)
  have hlen0 : ¬ ds.length = 0 := by
    rw [List.length_eq_zero]
    exact hds
  have hsign : ∀ c ∈ (if neg then ['-'] else ([] : List Char)), c = '-' := by
    cases neg with
    | true => intro c hc; simpa using hc
    | false => intro c hc; simp at hc
  -- the octave group parses to some integer
  have hstoi : ∃ v : Int, stoiInt ((if neg then ['-'] else []) ++ ds) = some v := by
    cases neg with
    | true =>
      have hsignl : (if (true : Bool) then ['-'] else ([] : List Char)) = ['-'] := rfl
      refine ⟨-(digitsToNat ds : Int), ?_⟩
      rw [hsignl]
      unfold stoiInt
      rw [if_pos (by simp)]
      simp only [List.singleton_append, List.tail_cons]
      rw [takeWhile_eq_self_of_all ds hdsdig, if_neg hlen0]
    | false =>
      have hsignl : (if (false : Bool) then ['-'] else ([] : List Char)) = [] := rfl
      refine ⟨(digitsToNat ds : Int), ?_⟩
      rw [hsignl]
      simp only [List.nil_append]
      unfold stoiInt
      cases ds with
      | nil => exact absurd rfl hds
      | cons c rest =>
        rw [if_neg (by
          simp only [List.head?_cons, Option.some.injEq]
          exact digit_ne_minus c (hdig c (List.mem_cons_self c rest)))]
        rw [takeWhile_eq_self_of_all _ hdsdig, if_neg hlen0]
  obtain ⟨v, hv⟩ := hstoi
  -- regex group spans over the assembled string
  have hletter := letter_chars_in_class L hL
  have hrest1 : ∀ c ∈ List.replicate f 'b' ++ (List.replicate sh '#' ++
      ((if neg then ['-'] else []) ++ ds)), note_name_root_class c = false := by
    intro c hc
    simp only [List.mem_append] at hc
    rcases hc with h1 | h2 | h3 | h4
    · rw [List.eq_of_mem_replicate h1]; decide
    · rw [List.eq_of_mem_replicate h2]; decide
    · rw [hsign c h3]; decide
    · exact digit_not_root_class c (hdig c h4)
  have hrest2 : ∀ c ∈ List.replicate sh '#' ++ ((if neg then ['-'] else []) ++ ds),
      decide (c = 'b') = false := by
    intro c hc
    simp only [List.mem_append] at hc
    rcases hc with h2 | h3 | h4
    · rw [List.eq_of_mem_replicate h2]; decide
    · rw [hsign c h3]; decide
    · exact digit_not_flat c (hdig c h4)
  have hrest3 : ∀ c ∈ (if neg then ['-'] else []) ++ ds, decide (c = '#') = false := by
    intro c hc
    simp only [List.mem_append] at hc
    rcases hc with h3 | h4
    · rw [hsign c h3]; decide
    · exact digit_not_sharp c (hdig c h4)
  have hg4all : ∀ c ∈ (if neg then ['-'] else []) ++ ds, digit_group_class c = true := by
    intro c hc
    simp only [List.mem_append] at hc
    rcases hc with h3 | h4
    · rw [hsign c h3]; decide
    · exact digit_in_digit_group c (hdig c h4)
  have hflats : ∀ c ∈ List.replicate f 'b', (fun c => decide (c = 'b')) c = true := by
    intro c hc
    rw [List.eq_of_mem_replicate hc]
    decide
  have hsharps : ∀ c ∈ List.replicate sh '#', (fun c => decide (c = '#')) c = true := by
    intro c hc
    rw [List.eq_of_mem_replicate hc]
    decide
  have h1t := takeWhile_append_of_all _ (List.replicate f 'b' ++ (List.replicate sh '#' ++
      ((if neg then ['-'] else []) ++ ds))) hletter
  rw [takeWhile_eq_nil_of_all _ hrest1, List.append_nil] at h1t
  have h1d := dropWhile_append_of_all ((note_names.getD L "").toList)
      (List.replicate f 'b' ++ (List.replicate sh '#' ++ ((if neg then ['-'] else []) ++ ds)))
      hletter
  rw [dropWhile_eq_self_of_all _ hrest1] at h1d
  have h2t := takeWhile_append_of_all (List.replicate f 'b') (List.replicate sh '#' ++
      ((if neg then ['-'] else []) ++ ds)) hflats
  rw [takeWhile_eq_nil_of_all _ hrest2, List.append_nil] at h2t
  have h2d := dropWhile_append_of_all (List.replicate f 'b') (List.replicate sh '#' ++
      ((if neg then ['-'] else []) ++ ds)) hflats
  rw [dropWhile_eq_self_of_all _ hrest2] at h2d
  have h3t := takeWhile_append_of_all (List.replicate sh '#')
      ((if neg then ['-'] else []) ++ ds) hsharps
  rw [takeWhile_eq_nil_of_all _ hrest3, List.append_nil] at h3t
  have h3d := dropWhile_append_of_all (List.replicate sh '#')
      ((if neg then ['-'] else []) ++ ds) hsharps
  rw [dropWhile_eq_self_of_all _ hrest3] at h3d
  have h4t := takeWhile_eq_self_of_all _ hg4all
  -- accidental bookkeeping
  have hacc : (if f > 0 then -(f : Int) else 0) + (if sh > 0 then (sh : Int) else 0) =
      (sh : Int) - (f : Int) := by
    rcases hfs with h | h <;> subst h
    · by_cases h3 : sh > 0 <;> simp [h3] <;> omega
    · by_cases h2 : f > 0 <;> simp [h2] <;> omega
  refine ⟨v, middle_c_midi + (v - middle_c_octave) * notes_per_octave +
      ((L : Int) * 2 - if L > 2 then 1 else 0) + ((sh : Int) - (f : Int)), ?_, ?_⟩
  · unfold generate_naming_and_midi_from_string
    dsimp only
    simp only [mkNoteName, toList_mk, List.append_assoc]
    rw [h1t, h1d]
    rw [h2t, h2d, h3t, h3d, h4t]
    rw [mk_toList, indexOf_note_names L hL]
    rw [if_neg (by simp only [not_le]; show L < note_names.length; simpa using hL)]
    simp only [List.length_replicate]
    rw [if_neg (by
      rcases hfs with h | h <;> subst h <;> simp)]
    rw [if_pos (by
      have : 0 < ds.length := List.length_pos.mpr hds
      simp only [List.length_append]
      omega)]
    rw [hv]
    rw [hacc]
  · rw [offsets_eq_calc L hL]
    simp only [middle_c_midi, middle_c_octave, notes_per_octave]
    by_cases h2 : L > 2
    · simp only [if_pos h2]
      omega
    · simp only [if_neg h2]
      omega

/-- If `(key, L, a)` with `key` the pitch class of `m` is a multimap entry,
then the naming `(L, a)` is among the namings generated for `m`. -/
theorem mem_generated_names (m : Int) (L : Nat) (a : Int)
    (h : ((m - middle_c_midi) % 12, L, a) ∈ scale_midi_offset_to_scale_degree_and_accidental) :
    (⟨L, a⟩ : NamingInformation) ∈ generate_naming_information_from_midi m := by
  unfold generate_naming_information_from_midi
  dsimp only
  have hnorm : Int.tmod (notes_per_octave + Int.tmod (m - middle_c_midi) notes_per_octave)
      notes_per_octave = (m - middle_c_midi) % 12 := by
    simp only [notes_per_octave, middle_c_midi]
    exact tmod_normalisation _
  rw [hnorm]
  unfold equal_range_at
  refine List.mem_map.mpr ⟨(L, a), ?_, rfl⟩
  refine List.mem_map.mpr ⟨((m - middle_c_midi) % 12, L, a), ?_, rfl⟩
  exact List.mem_filter.mpr ⟨h, by simp⟩

/-- C3 (counterexample): the valid name "Cb4" (letter C, one flat, octave 4,
pitch 59) round-trips through its pitch to the naming set {B natural} only:
the original naming (letter 0, accidental -1) is lost. -/
theorem c3_roundtrip_counterexample :
    Note.fromName "Cb4" = Except.ok { midi := some ⟨59, 4⟩, names := some [⟨0, -1⟩] } ∧
    (Note.fromMidi 59).names = some [⟨6, 0⟩] ∧
    ¬ ((⟨0, -1⟩ : NamingInformation) ∈ [(⟨6, 0⟩ : NamingInformation)]) := by
  decide

/-- C3 (amended): for every valid note-name string with an octave whose
naming appears in the offset-to-naming table — accidental 0 on any letter,
one flat on letters D,E,G,A,B, or one sharp on letters C,D,F,G,A — the
round trip through the pitch value yields a naming set containing the
original naming. -/
theorem c3_roundtrip_contains_table_namings :
    ∀ (L f sh : Nat) (neg : Bool) (ds : List Char),
      L < 7 → (f = 0 ∨ sh = 0) → ds ≠ [] → (∀ c ∈ ds, c ∈ digitChars) →
      ((f = 0 ∧ sh = 0) ∨ (f = 1 ∧ sh = 0 ∧ L ∈ [1, 2, 4, 5, 6]) ∨
        (f = 0 ∧ sh = 1 ∧ L ∈ [0, 1, 3, 4, 5])) →
      ∃ note mi, Note.fromName (mkNoteName L f sh neg ds) = Except.ok note ∧
        note.midi = some mi ∧ note.names = some [⟨L, (sh : Int) - (f : Int)⟩] ∧
        (⟨L, (sh : Int) - (f : Int)⟩ : NamingInformation) ∈
          generate_naming_information_from_midi mi.midi_val := by
  intro L f sh neg ds hL hfs hds hdig hcond
  obtain ⟨v, midival, hgen, hmod⟩ := parse_mkNoteName L f sh neg ds hL hfs hds hdig
  refine ⟨{ midi := some ⟨midival, v⟩, names := some [⟨L, (sh : Int) - (f : Int)⟩] },
    ⟨midival, v⟩, ?_, rfl, rfl, ?_⟩
  · unfold Note.fromName
    rw [hgen]
  · apply mem_generated_names
    dsimp only
    rw [hmod]
    rcases hcond with ⟨hf, hsh⟩ | ⟨hf, hsh, hmem⟩ | ⟨hf, hsh, hmem⟩
    · subst hf; subst hsh
      interval_cases L <;> decide
    · subst hf; subst hsh
      fin_cases hmem <;> decide
    · subst hf; subst hsh
      fin_cases hmem <;> decide

/-- Witness for C3 (amended): the name "Bb4". -/
theorem c3_roundtrip_contains_table_namings_witness :
    ∃ note mi, Note.fromName (mkNoteName 6 1 0 false ['4']) = Except.ok note ∧
      note.midi = some mi ∧ note.names = some [⟨6, (0 : Int) - (1 : Int)⟩] ∧
      (⟨6, (0 : Int) - (1 : Int)⟩ : NamingInformation) ∈
        generate_naming_information_from_midi mi.midi_val :=
  c3_roundtrip_contains_table_namings 6 1 0 false ['4'] (by norm_num) (Or.inr rfl)
    (by simp) (by decide) (Or.inr (Or.inl ⟨rfl, rfl, by decide⟩))
